import Mathlib

/-!
Shallow embedding of the Assignment Rule engine
(`frappe/automation/doctype/assignment_rule/assignment_rule.py`) and of the
doctype-map cache helpers (`frappe/cache_manager.py`), together with theorems
settling the specification claims about them.

Conventions of the embedding:
* Python strings are `String`; a text field that may be unset (`None`) or empty
  is an `Option String`, and Python truthiness of such a field is
  "`some s` with `s ≠ \x22\x22`".
* A Python function that can raise an uncaught `IndexError` is embedded with an
  `Option` result, `none` standing for the error.
* Condition evaluation (`frappe.safe_eval`, an external collaborator) is a
  parameter `ev : String → Except String Bool`; `Except.error` models a raised
  exception.
* The external ToDo ("work-item") store is the list of the document's todo
  records; `frappe.db.count` for load balancing counts todos of the whole
  document type across all documents, so it is a separate parameter
  `countOf : String → Nat`.
-/

namespace Frappe

/-- A ToDo (work-item) record tied to one document: its `status`
(`Open` / `Closed` / `Cancelled`), the back-reference `assignment_rule`
to the rule that created it, and the assignee (`owner`). -/
structure Todo where
  status : String
  assignment_rule : String
  owner : Option String
deriving DecidableEq

/-- An `Assignment Rule` configuration document, with the fields read by the
engine.  `users` is the ordered child table of candidate assignees (only the
`user` column is read), `assignment_days` the child table of weekday labels
(only the `day` column is read). -/
structure RuleCfg where
  name : String
  document_type : String
  rule : String
  assign_condition : Option String
  unassign_condition : Option String
  close_condition : Option String
  assignment_days : List String
  users : List String
  last_user : Option String
deriving DecidableEq

/-- External expression evaluator (`frappe.safe_eval` over the document's
fields); an `Except.error` models a raised exception. -/
abbrev Evaluator := String → Except String Bool

/-- Python truthiness of an optional text field: set and non-empty. -/
def fieldTruthy : Option String → Bool
  | none => false
  | some s => !(s == "")

namespace AssignmentRule

/-- `AssignmentRule.safe_eval`: evaluate the given condition field against the
document.  If the field is unset or empty the guard `if self.get(fieldname)`
fails and `False` is returned.  If the evaluator raises, the exception is
caught, a non-fatal warning (`frappe.msgprint`, indicator orange) is recorded,
and `False` is returned; the second component collects the warning messages
shown to the invoking user. -/
def safe_eval (ev : Evaluator) (field : Option String) : Bool × List String :=
  match field with
  | none => (false, [])
  | some s =>
    if s = "" then (false, [])
    else
      match ev s with
      | Except.ok b => (b, [])
      | Except.error e => (false, ["Auto assignment failed: " ++ e])

/-- `AssignmentRule.get_assignment_days`: the `day` column of the
`assignment_days` child table (the embedding stores the column directly). -/
def get_assignment_days (r : RuleCfg) : List String :=
  r.assignment_days

/-- `AssignmentRule.is_rule_not_applicable_today`: true when the day list is
non-empty and today's weekday (`frappe.flags.assignment_day` or the real
weekday, here the parameter `today`) is not among the listed days. -/
def is_rule_not_applicable_today (r : RuleCfg) (today : String) : Bool :=
  let days := get_assignment_days r
  if ¬ days.isEmpty ∧ ¬ today ∈ days then true else false

/-- Helper for the loop in `get_user_round_robin`
(`for i, d in enumerate(self.users): if last_user == d.user: return
self.users[i+1].user`): `none` means the loop finished without a match,
`some none` means the match was at the final index, where `users[i+1]`
would raise an `IndexError`. -/
def nextAfter (lu : String) : List String → Option (Option String)
  | [] => none
  | [u] => if u = lu then some none else none
  | u :: v :: rest => if u = lu then some (some v) else nextAfter lu (v :: rest)

/-- `AssignmentRule.get_user_round_robin`.  The source guard is
`if not self.last_user or self.last_user == self.users[-1].user`: a
`last_user` that is unset (`none`) *or the empty string* is falsy, and the
`or` short-circuits, so `self.users[-1]` is not evaluated in that case.
`none` in the result embeds an uncaught `IndexError` (`self.users[-1]` /
`self.users[0]` on an empty candidate list, or `self.users[i+1]` on a match
at the last index, which the guard makes unreachable). -/
def get_user_round_robin (last_user : Option String) (users : List String) :
    Option String :=
  match last_user with
  | none => users.head?
  | some lu =>
    if lu = "" then users.head?
    else
      match users.getLast? with
      | none => none
      | some lastu =>
        if lu = lastu then users.head?
        else
          match nextAfter lu users with
          | some r => r
          | none => users.head?

/-- Stable insertion used to embed Python's built-in `sorted` on the `count`
key: an element is inserted before the first strictly larger entry and after
all equal ones, which is exactly the (unique) stable-sort placement. -/
def insert_by_count (x : String × Nat) : List (String × Nat) → List (String × Nat)
  | [] => [x]
  | y :: ys => if x.2 ≤ y.2 then x :: y :: ys else y :: insert_by_count x ys

/-- Python's `sorted(counts, key = lambda k: k['count'])`: a stable sort on the
count; the result of a stable sort is unique, so stable insertion sort is a
faithful embedding. -/
def sorted_by_count : List (String × Nat) → List (String × Nat)
  | [] => []
  | x :: xs => insert_by_count x (sorted_by_count xs)

/-- `AssignmentRule.get_user_load_balancing`: pair each candidate with their
count of currently Open ToDos of the rule's `document_type`
(`frappe.db.count`, the external parameter `countOf`), sort stably by count and
take the first entry's user.  `none` embeds the `IndexError` of
`sorted_counts[0]` on an empty candidate list. -/
def get_user_load_balancing (users : List String) (countOf : String → Nat) :
    Option String :=
  let counts := users.map fun u => (u, countOf u)
  let sorted_counts := sorted_by_count counts
  sorted_counts.head?.map Prod.fst

/-- `AssignmentRule.get_user`: dispatch on the rule kind.  A kind that is
neither `Round Robin` nor `Load Balancing` falls off the end of the Python
function and yields `None`. -/
def get_user (r : RuleCfg) (countOf : String → Nat) : Option String :=
  if r.rule = "Round Robin" then get_user_round_robin r.last_user r.users
  else if r.rule = "Load Balancing" then get_user_load_balancing r.users countOf
  else none

end AssignmentRule

/-- Modelled from the spec: `assign_to.clear` (`frappe.desk.form.assign_to` is
not part of this excerpt).  "TodoStore.clear(type, name)" clears all existing
assignments for the document; a cleared work-item is Cancelled (the lifecycle
never resurrects a Cancelled item) and the caller treats the phase as cleared,
so the result is truthy. -/
def assign_to_clear (todos : List Todo) : Bool × List Todo :=
  (true, todos.map fun t => Todo.mk "Cancelled" t.assignment_rule t.owner)

/-- Modelled from the spec: `assign_to.close_all_assignments`
(`frappe.desk.form.assign_to` is not part of this excerpt).
"TodoStore.close_all(type, name)" closes all of the document's open
assignments ("close all of the document's open assignments via that rule and
stop"), so the result is truthy and the caller stops the phase. -/
def close_all_assignments (todos : List Todo) : Bool × List Todo :=
  (true, todos.map fun t =>
    if t.status = "Open" then Todo.mk "Closed" t.assignment_rule t.owner else t)

namespace AssignmentRule

/-- `AssignmentRule.clear_assignment`: clear the document's assignments when
the `unassign_condition` evaluates true; when it evaluates false the Python
function returns `None`, embedded as a `false` first component with the todos
untouched. -/
def clear_assignment (ev : Evaluator) (r : RuleCfg) (todos : List Todo) :
    Bool × List Todo :=
  if (safe_eval ev r.unassign_condition).1 then assign_to_clear todos
  else (false, todos)

/-- `AssignmentRule.close_assignments` (the method): close all of the
document's assignments when the `close_condition` evaluates true; otherwise
the Python function returns `None` (falsy), embedded as `false` with the todos
untouched. -/
def close_assignments (ev : Evaluator) (r : RuleCfg) (todos : List Todo) :
    Bool × List Todo :=
  if (safe_eval ev r.close_condition).1 then close_all_assignments todos
  else (false, todos)

/-- `AssignmentRule.apply_unassign`: the guard requires the
`unassign_condition` field to be truthy and `self.name` to occur among the
`assignment_rule` back-references of the fetched assignments; otherwise
`False` is returned and nothing changes. -/
def apply_unassign (ev : Evaluator) (r : RuleCfg) (assignments todos : List Todo) :
    Bool × List Todo :=
  if fieldTruthy r.unassign_condition = true ∧
      r.name ∈ assignments.map fun d => d.assignment_rule then
    clear_assignment ev r todos
  else (false, todos)

/-- `AssignmentRule.apply_close`: the source guard is
`self.close_assignments and self.name in [d.assignment_rule for d in
assignments]`; its first conjunct is the bound method `close_assignments`,
which is always truthy, so the guard reduces to the authorship check. -/
def apply_close (ev : Evaluator) (r : RuleCfg) (assignments todos : List Todo) :
    Bool × List Todo :=
  if r.name ∈ assignments.map fun d => d.assignment_rule then
    close_assignments ev r todos
  else (false, todos)

/-- `AssignmentRule.do_assignment`: clear any pre-existing assignment for the
document, pick a user per the rule's kind, create a new Open ToDo referencing
the rule, and persist the chosen user as `last_user` (`self.db_set`), returned
as the second component.  The rendered description and the notification flag
are external effects (TemplateRenderer / notification system) with no bearing
on the modelled state. -/
def do_assignment (countOf : String → Nat) (r : RuleCfg) (todos : List Todo) :
    List Todo × Option String :=
  let cleared := (assign_to_clear todos).2
  let user := get_user r countOf
  (cleared ++ [Todo.mk "Open" r.name user], user)

/-- `AssignmentRule.apply_assign`: perform the assignment and return `True`
when the `assign_condition` evaluates true; otherwise the Python function
returns `None` (falsy) and nothing changes.  The third component is the rule's
`last_user` after the call. -/
def apply_assign (ev : Evaluator) (countOf : String → Nat) (r : RuleCfg)
    (todos : List Todo) : Bool × List Todo × Option String :=
  if (safe_eval ev r.assign_condition).1 then
    let res := do_assignment countOf r todos
    (true, res.1, res.2)
  else (false, todos, r.last_user)

/-- `AssignmentRule.validate` builds on `get_repeated`; loop of
`get_repeated(values)`: `unique_list` collects first occurrences, `diff`
collects values seen again (each at most once). -/
def get_repeated_loop : List String → List String → List String → List String
  | [], _, diff => diff
  | v :: vs, uniq, diff =>
    if v ∈ uniq then
      if v ∈ diff then get_repeated_loop vs uniq diff
      else get_repeated_loop vs uniq (diff ++ [v])
    else get_repeated_loop vs (uniq ++ [v]) diff

end AssignmentRule

/-- Module-level `get_repeated(values)`: the space-joined list of repeated
values. -/
def get_repeated (values : List String) : String :=
  String.intercalate " " (AssignmentRule.get_repeated_loop values [] [])

namespace AssignmentRule

/-- `AssignmentRule.validate`: `frappe.throw` (embedded as `Except.error`)
exactly when `len(set(assignment_days)) != len(assignment_days)`; the set
cardinality is the number of distinct entries, i.e. `List.dedup`'s length.
This is the only throw in `validate`. -/
def validate (assignment_days : List String) : Except String Unit :=
  if ¬ assignment_days.dedup.length = assignment_days.length then
    Except.error
      ("Assignment Day " ++ get_repeated assignment_days ++ " has been repeated.")
  else Except.ok ()

end AssignmentRule

/-- Module-level `get_assignments(doc)`: the document's ToDos whose status is
not Cancelled, limited to 5 records. -/
def get_assignments (todos : List Todo) : List Todo :=
  (todos.filter fun t => !(t.status == "Cancelled")).take 5

/-- Module-level `reopen_closed_assignment(doc)`, the search part:
`frappe.db.exists` picks the first ToDo of the document with status Closed;
`some` returns the store with that record set to Open. -/
def reopenAux : List Todo → Option (List Todo)
  | [] => none
  | t :: ts =>
    if t.status = "Closed" then some (Todo.mk "Open" t.assignment_rule t.owner :: ts)
    else (reopenAux ts).map fun ts2 => t :: ts2

/-- Module-level `reopen_closed_assignment(doc)`: if no Closed ToDo exists
return `False`, else set the first one's status to Open and return `True`. -/
def reopen_closed_assignment (todos : List Todo) : Bool × List Todo :=
  match reopenAux todos with
  | some ts => (true, ts)
  | none => (false, todos)

/-- The unassign loop of module-level `apply`: iterate the rules in priority
order, skip rules not applicable today, stop at the first truthy
`apply_unassign`; the first component is the final value of the `clear`
flag. -/
def unassign_loop (ev : Evaluator) (today : String) (assignments : List Todo) :
    List RuleCfg → List Todo → Bool × List Todo
  | [], todos => (false, todos)
  | r :: rs, todos =>
    if AssignmentRule.is_rule_not_applicable_today r today then
      unassign_loop ev today assignments rs todos
    else
      let c := AssignmentRule.apply_unassign ev r assignments todos
      if c.1 then (true, c.2) else unassign_loop ev today assignments rs c.2

/-- The assign loop of module-level `apply`: stop at the first rule whose
`apply_assign` returns truthy; the first component is the final value of the
`new_apply` flag.  (The per-rule `last_user` write is a single-field update of
that rule document and is not read again in the same loop.) -/
def assign_loop (ev : Evaluator) (countOf : String → Nat) (today : String) :
    List RuleCfg → List Todo → Bool × List Todo
  | [], todos => (false, todos)
  | r :: rs, todos =>
    if AssignmentRule.is_rule_not_applicable_today r today then
      assign_loop ev countOf today rs todos
    else
      let a := AssignmentRule.apply_assign ev countOf r todos
      if a.1 then (true, a.2.1) else assign_loop ev countOf today rs a.2.1

/-- The close/reopen loop of module-level `apply`:
for each applicable rule, when no new assignment happened and the rule's
`close_condition` evaluates false, try to reopen a Closed assignment and stop
if one was reopened; then (in the same iteration) stop at the first truthy
`apply_close`.  A failed reopen leaves the store untouched
(`reopen_closed_assignment` only writes when it returns `True`). -/
def close_loop (ev : Evaluator) (today : String) (new_apply : Bool)
    (assignments : List Todo) : List RuleCfg → List Todo → List Todo
  | [], todos => todos
  | r :: rs, todos =>
    if AssignmentRule.is_rule_not_applicable_today r today then
      close_loop ev today new_apply assignments rs todos
    else
      let step : Bool × List Todo :=
        if new_apply = false then
          if (AssignmentRule.safe_eval ev r.close_condition).1 = false then
            reopen_closed_assignment todos
          else (false, todos)
        else (false, todos)
      if step.1 then step.2
      else
        let c := AssignmentRule.apply_close ev r assignments todos
        if c.1 then c.2 else close_loop ev today new_apply assignments rs todos

/-- Module-level `apply(doc)`: load the enabled rules for the document's type
in `priority desc` order (the parameter `rules`, already the store lookup of
step 2; the `in_patch` / `in_install` / `in_setup_wizard` suppression flags
and document loading are host-framework concerns outside the state), then run
the unassign, assign and close/reopen phases.  The close/reopen phase is
entered only when the re-fetched assignments are non-empty. -/
def apply (ev : Evaluator) (countOf : String → Nat) (today : String)
    (rules : List RuleCfg) (todos : List Todo) : List Todo :=
  if rules.isEmpty then todos
  else
    let assignments := get_assignments todos
    let step1 : Bool × List Todo :=
      if ¬ assignments.isEmpty then unassign_loop ev today assignments rules todos
      else (true, todos)
    let step2 : Bool × List Todo :=
      if step1.1 then assign_loop ev countOf today rules step1.2
      else (false, step1.2)
    let assignments2 := get_assignments step2.2
    if ¬ assignments2.isEmpty then
      close_loop ev today step2.1 assignments2 rules step2.2
    else step2.2

/-- Module-level `bulk_apply`, the loop: each name is either enqueued
(`frappe.enqueue`, when `background`) or processed inline (`apply`, otherwise);
the two components collect the enqueued and the inline names in order. -/
def bulk_apply_loop (background : Bool) : List String → List String × List String
  | [] => ([], [])
  | n :: ns =>
    let rest := bulk_apply_loop background ns
    if background then (n :: rest.1, rest.2) else (rest.1, n :: rest.2)

/-- Module-level `bulk_apply(doctype, docnames)`: `background` is
`len(docnames) > 5`; returns (enqueued names, inline-processed names). -/
def bulk_apply (docnames : List String) : List String × List String :=
  bulk_apply_loop (decide (5 < docnames.length)) docnames

/-- `cache_manager`: the `assignment_rule_map` hash
(`frappe.scrub('Assignment Rule') + '_map'`) of the external key-value cache,
an association list from hash field to the cached (deserialized) list of rule
records, each reduced to its `name`. -/
abbrev DoctypeMapCache := List (String × List String)

/-- Redis `hget`: the value stored at a hash field.  The stored value is a
JSON string and is never the empty string (even an empty item list serializes
to a truthy `[]` text), so `some` is exactly the source's truthiness test
`if doctype_map`. -/
def hget (m : DoctypeMapCache) (field : String) : Option (List String) :=
  (m.find? fun p => p.1 == field).map fun p => p.2

/-- Redis `hset`: overwrite the value stored at a hash field. -/
def hset (m : DoctypeMapCache) (field : String) (value : List String) :
    DoctypeMapCache :=
  (field, value) :: m.filter fun p => !(p.1 == field)

/-- Redis `hdel`: remove a hash field. -/
def hdel (m : DoctypeMapCache) (field : String) : DoctypeMapCache :=
  m.filter fun p => !(p.1 == field)

/-- `cache_manager.get_doctype_map(doctype, name, filters, order_by)`: read
the cache at field `name`; on a miss, compute the items from the store
(`frappe.get_all`, the parameter `computed`; the `TableMissingError` fallback
is a host-bootstrap concern) and — as written in the source — store them under
field `doctype`, not under `name`. -/
def get_doctype_map (m : DoctypeMapCache) (doctype name : String)
    (computed : List String) : List String × DoctypeMapCache :=
  match hget m name with
  | some items => (items, m)
  | none => (computed, hset m doctype computed)

/-- `cache_manager.clear_doctype_map(doctype, name)`: delete hash field
`name`. -/
def clear_doctype_map (m : DoctypeMapCache) (name : String) : DoctypeMapCache :=
  hdel m name

/-- `AssignmentRule.on_update` (and `after_rename`):
`clear_doctype_map('Assignment Rule', self.name)` — the field cleared is the
rule's own name. -/
def on_update (m : DoctypeMapCache) (rule_name : String) : DoctypeMapCache :=
  clear_doctype_map m rule_name

/-- Repeated round-robin selection over a fixed candidate list, starting from
`last_user = none`: after every call the chosen user is persisted as
`last_user` (`do_assignment` does `self.db_set('last_user', user)`) and fed
into the next call. -/
def rr_seq (users : List String) : Nat → Option String
  | 0 => AssignmentRule.get_user_round_robin none users
  | k + 1 => AssignmentRule.get_user_round_robin (rr_seq users k) users

/-- The load-balancing selection as the spec words it: the first candidate (in
declared order) whose open-count is minimal among all candidates (stable
tie-break); to be compared with `get_user_load_balancing`. -/
def spec_first_minimal (users : List String) (countOf : String → Nat) :
    Option String :=
  users.find? fun u => decide (∀ v ∈ users, countOf u ≤ countOf v)

/-- Evaluator for concrete scenarios: every expression evaluates to false. -/
def ev_false : Evaluator := fun _ => Except.ok false

/-- Evaluator for concrete scenarios: exactly the expression `c2` evaluates to
true. -/
def ev_c2 : Evaluator := fun s => Except.ok (s == "c2")

/-- Evaluator for concrete scenarios: every evaluation raises. -/
def ev_err : Evaluator := fun _ => Except.error "bad expr"

/-- Open-count table for the load-balancing example: `a` has 3 open items,
everyone else 1. -/
def lb_counts : String → Nat := fun u => if u = "a" then 3 else 1

/-- Scenario rule `r1`: applicable every day, `close_condition` is the
expression `c1`. -/
def rule_r1 : RuleCfg :=
  ⟨"r1", "Note", "Round Robin", none, none, some "c1", [], ["u1"], none⟩

/-- Scenario rule `r2`: applicable every day, `close_condition` is the
expression `c2`. -/
def rule_r2 : RuleCfg :=
  ⟨"r2", "Note", "Round Robin", none, none, some "c2", [], ["u1"], none⟩

/-- Scenario rule `B`: truthy `unassign_condition`, no authored assignment in
the scenarios it is used in. -/
def rule_b : RuleCfg :=
  ⟨"B", "Note", "Round Robin", none, some "cond", none, [], ["u1"], none⟩

/-- Scenario todo: an Open assignment authored by rule `r2`. -/
def todo_open_r2 : Todo := ⟨"Open", "r2", some "alice"⟩

/-- Scenario todo: an Open assignment authored by rule `A`. -/
def todo_open_a : Todo := ⟨"Open", "A", some "alice"⟩

/-- Scenario todo: a Closed assignment authored by rule `r1`. -/
def todo_closed_r1 : Todo := ⟨"Closed", "r1", some "bob"⟩

/-! ## Helper lemmas -/

theorem find?_congr_mem {α : Type} {p q : α → Bool} :
    ∀ l : List α, (∀ a ∈ l, p a = q a) → l.find? p = l.find? q := by
  intro l
  induction l with
  | nil => intro _; rfl
  | cons x t ih =>
    intro h
    have hx := h x (List.mem_cons_self x t)
    by_cases hpx : p x = true
    · rw [List.find?_cons_of_pos t hpx, List.find?_cons_of_pos t (hx ▸ hpx)]
    · have hqx : ¬ q x = true := fun hq => hpx (hx ▸ hq)
      rw [List.find?_cons_of_neg t (by simpa using hpx),
        List.find?_cons_of_neg t (by simpa using hqx)]
      exact ih fun a ha => h a (List.mem_cons_of_mem x ha)

theorem insert_by_count_ne_nil (x : String × Nat) (l : List (String × Nat)) :
    AssignmentRule.insert_by_count x l ≠ [] := by
  cases l with
  | nil => simp [AssignmentRule.insert_by_count]
  | cons y ys =>
    simp only [AssignmentRule.insert_by_count]
    split <;> simp

theorem sorted_by_count_eq_nil_iff (l : List (String × Nat)) :
    AssignmentRule.sorted_by_count l = [] ↔ l = [] := by
  cases l with
  | nil => simp [AssignmentRule.sorted_by_count]
  | cons x xs =>
    simp only [AssignmentRule.sorted_by_count]
    exact ⟨fun h => absurd h (insert_by_count_ne_nil x _), fun h => by simp at h⟩

/-- The head of the stable sort on counts is the first entry attaining the
minimal count. -/
theorem sorted_by_count_head (l : List (String × Nat)) :
    (AssignmentRule.sorted_by_count l).head?
      = l.find? fun a => decide (∀ b ∈ l, a.2 ≤ b.2) := by
  induction l with
  | nil => rfl
  | cons x t ih =>
    simp only [AssignmentRule.sorted_by_count]
    cases ht : AssignmentRule.sorted_by_count t with
    | nil =>
      have ht0 : t = [] := (sorted_by_count_eq_nil_iff t).mp ht
      subst ht0
      simp [AssignmentRule.insert_by_count, List.find?]
    | cons m rest =>
      rw [ht] at ih
      have hfind : t.find? (fun a => decide (∀ b ∈ t, a.2 ≤ b.2)) = some m := by
        simpa using ih.symm
      have hm_mem : m ∈ t := List.mem_of_find?_eq_some hfind
      have hm_min : ∀ b ∈ t, m.2 ≤ b.2 := by
        have := List.find?_some hfind
        simpa using this
      by_cases hx : x.2 ≤ m.2
      · have hpos : (fun a => decide (∀ b ∈ x :: t, a.2 ≤ b.2)) x = true := by
          simp only [decide_eq_true_eq]
          intro b hb
          rcases List.mem_cons.mp hb with hb | hb
          · exact hb ▸ le_refl _
          · exact le_trans hx (hm_min b hb)
        rw [List.find?_cons_of_pos t hpos]
        simp only [AssignmentRule.insert_by_count, if_pos hx]
        rfl
      · have hneg : ¬ (fun a => decide (∀ b ∈ x :: t, a.2 ≤ b.2)) x = true := by
          simp only [decide_eq_true_eq]
          intro hall
          exact hx (hall m (List.mem_cons_of_mem x hm_mem))
        rw [List.find?_cons_of_neg t (by simpa using hneg)]
        have hcongr :
            t.find? (fun a => decide (∀ b ∈ x :: t, a.2 ≤ b.2))
              = t.find? (fun a => decide (∀ b ∈ t, a.2 ≤ b.2)) := by
          apply find?_congr_mem
          intro a ha
          apply decide_eq_decide.mpr
          constructor
          · intro hall b hb
            exact hall b (List.mem_cons_of_mem x hb)
          · intro hall b hb
            rcases List.mem_cons.mp hb with hb | hb
            · subst hb
              exact le_of_lt (lt_of_le_of_lt (hall m hm_mem) (not_le.mp hx))
            · exact hall b hb
        rw [hcongr, hfind]
        simp only [AssignmentRule.insert_by_count, if_neg hx]
        rfl

/-- The load-balancing selection equals the spec's first-minimal rule. -/
theorem glb_eq_spec (users : List String) (countOf : String → Nat) :
    AssignmentRule.get_user_load_balancing users countOf
      = spec_first_minimal users countOf := by
  unfold AssignmentRule.get_user_load_balancing spec_first_minimal
  simp only [sorted_by_count_head]
  rw [List.find?_map]
  rw [Option.map_map]
  have hpred :
      ((fun a : String × Nat => decide (∀ b ∈ users.map fun u => (u, countOf u), a.2 ≤ b.2))
          ∘ fun u => (u, countOf u))
        = fun u => decide (∀ v ∈ users, countOf u ≤ countOf v) := by
    funext u
    simp only [Function.comp]
    apply decide_eq_decide.mpr
    constructor
    · intro hall v hv
      exact hall (v, countOf v) (List.mem_map_of_mem _ hv)
    · intro hall b hb
      rcases List.mem_map.mp hb with ⟨v, hv, rfl⟩
      exact hall v hv
  rw [hpred]
  have hfst : (Prod.fst ∘ fun u : String => (u, countOf u)) = id := rfl
  rw [hfst, Option.map_id]
  rfl

/-- A non-empty list has a first element of minimal image. -/
theorem exists_le_all (countOf : String → Nat) :
    ∀ users : List String, users ≠ [] → ∃ u ∈ users, ∀ v ∈ users, countOf u ≤ countOf v := by
  intro users
  induction users with
  | nil => intro h; exact absurd rfl h
  | cons x t ih =>
    intro _
    cases t with
    | nil =>
      exact ⟨x, List.mem_cons_self x [], by
        intro v hv
        rcases List.mem_cons.mp hv with hv | hv
        · exact hv ▸ le_refl _
        · simp at hv⟩
    | cons y s =>
      obtain ⟨m, hm_mem, hm_min⟩ := ih (by simp)
      rcases le_total (countOf x) (countOf m) with hxm | hmx
      · refine ⟨x, List.mem_cons_self x _, ?_⟩
        intro v hv
        rcases List.mem_cons.mp hv with hv | hv
        · exact hv ▸ le_refl _
        · exact le_trans hxm (hm_min v hv)
      · refine ⟨m, List.mem_cons_of_mem x hm_mem, ?_⟩
        intro v hv
        rcases List.mem_cons.mp hv with hv | hv
        · exact hv ▸ hmx
        · exact hm_min v hv

theorem bulk_apply_loop_true :
    ∀ ns : List String, bulk_apply_loop true ns = (ns, []) := by
  intro ns
  induction ns with
  | nil => rfl
  | cons n t ih => simp [bulk_apply_loop, ih]

theorem bulk_apply_loop_false :
    ∀ ns : List String, bulk_apply_loop false ns = ([], ns) := by
  intro ns
  induction ns with
  | nil => rfl
  | cons n t ih => simp [bulk_apply_loop, ih]

/-! ## Claim theorems -/

/-- C4: `get_user_load_balancing` selects, among the rule's candidates, the
one whose count of currently Open work-items of the rule's `document_type` is
minimal, breaking ties by first occurrence in the original candidate order;
in particular, for declared candidates `a`, `b`, `c` with open counts 3, 1, 1,
it returns `b`. -/
theorem claim4_load_balancing_first_minimal :
    (∀ (users : List String) (countOf : String → Nat),
      AssignmentRule.get_user_load_balancing users countOf
        = spec_first_minimal users countOf) ∧
    AssignmentRule.get_user_load_balancing ["a", "b", "c"] lb_counts = some "b" := by
  constructor
  · exact glb_eq_spec
  · decide

/-- C7: `bulk_apply` with strictly more than 5 document names enqueues one
asynchronous apply task per name and performs no inline processing; with 5 or
fewer names every document is processed inline and nothing is enqueued. -/
theorem claim7_bulk_apply_threshold :
    (∀ docnames : List String, 5 < docnames.length →
      bulk_apply docnames = (docnames, [])) ∧
    (∀ docnames : List String, docnames.length ≤ 5 →
      bulk_apply docnames = ([], docnames)) := by
  constructor
  · intro docnames h
    unfold bulk_apply
    rw [decide_eq_true h]
    exact bulk_apply_loop_true docnames
  · intro docnames h
    unfold bulk_apply
    rw [decide_eq_false (not_lt.mpr h)]
    exact bulk_apply_loop_false docnames

/-- Witness for C7: 6 names yield exactly those 6 enqueued tasks and no inline
processing; 2 names are processed inline with nothing enqueued. -/
theorem claim7_witness :
    bulk_apply ["d1", "d2", "d3", "d4", "d5", "d6"]
        = (["d1", "d2", "d3", "d4", "d5", "d6"], [])
      ∧ bulk_apply ["d1", "d2"] = ([], ["d1", "d2"]) := by
  constructor
  · exact claim7_bulk_apply_threshold.1 _ (by decide)
  · exact claim7_bulk_apply_threshold.2 _ (by decide)

/-- C8: `AssignmentRule.validate` succeeds exactly when the rule's
`assignment_days` are pairwise distinct — equivalently, it raises iff the list
contains a repeated weekday entry; the duplicate check is the only throw in
`validate`. -/
theorem claim8_validate_iff_nodup (days : List String) :
    AssignmentRule.validate days = Except.ok () ↔ days.Nodup := by
  have key : days.dedup.length = days.length ↔ days.Nodup := by
    constructor
    · intro hlen
      have hd : days.dedup = days := (List.dedup_sublist days).eq_of_length hlen
      rw [← hd]
      exact List.nodup_dedup days
    · intro h
      rw [List.dedup_eq_self.mpr h]
  unfold AssignmentRule.validate
  by_cases hC : days.dedup.length = days.length
  · rw [if_neg (by simpa using hC)]
    exact ⟨fun _ => key.mp hC, fun _ => rfl⟩
  · rw [if_pos (by simpa using hC)]
    exact ⟨fun h => Except.noConfusion h, fun h => absurd (key.mpr h) hC⟩

/-- Witness for C8: distinct days pass validation; the repeated day `Mon`
fails it. -/
theorem claim8_witness :
    AssignmentRule.validate ["Mon", "Tue"] = Except.ok ()
      ∧ ¬ AssignmentRule.validate ["Mon", "Mon"] = Except.ok () := by
  constructor
  · exact (claim8_validate_iff_nodup ["Mon", "Tue"]).mpr (by decide)
  · intro h
    have hnd := (claim8_validate_iff_nodup ["Mon", "Mon"]).mp h
    simp at hnd

/-- C6: when evaluating a condition expression raises, `safe_eval` catches the
exception, surfaces a non-fatal warning to the current user, and returns
`False`; the embedding of `safe_eval` is a total function, so the exception
never propagates to the caller. -/
theorem claim6_safe_eval_catches (ev : Evaluator) (field : Option String)
    (s e : String) (hf : field = some s) (hs : ¬ s = "")
    (he : ev s = Except.error e) :
    AssignmentRule.safe_eval ev field
      = (false, ["Auto assignment failed: " ++ e]) := by
  subst hf
  simp [AssignmentRule.safe_eval, hs, he]

/-- Witness for C6 at a throwing evaluator. -/
theorem claim6_witness :
    AssignmentRule.safe_eval ev_err (some "boom")
      = (false, ["Auto assignment failed: bad expr"]) :=
  claim6_safe_eval_catches ev_err (some "boom") "boom" "bad expr" rfl
    (by decide) rfl

/-- C9: an unset or empty condition field makes `safe_eval` return `False`
(with no warning); consequently a rule with no `assign_condition` never
performs an assignment, and an assign phase in which every rule lacks an
`assign_condition` leaves the store untouched and reports no new
assignment. -/
theorem claim9_unset_condition_never_assigns :
    (∀ ev : Evaluator,
      AssignmentRule.safe_eval ev none = (false, [])
        ∧ AssignmentRule.safe_eval ev (some "") = (false, [])) ∧
    (∀ (ev : Evaluator) (countOf : String → Nat) (r : RuleCfg)
        (todos : List Todo),
      r.assign_condition = none →
      AssignmentRule.apply_assign ev countOf r todos
        = (false, todos, r.last_user)) ∧
    (∀ (ev : Evaluator) (countOf : String → Nat) (today : String)
        (rules : List RuleCfg) (todos : List Todo),
      (∀ r ∈ rules, r.assign_condition = none) →
      assign_loop ev countOf today rules todos = (false, todos)) := by
  have happly : ∀ (ev : Evaluator) (countOf : String → Nat) (r : RuleCfg)
      (todos : List Todo),
      r.assign_condition = none →
      AssignmentRule.apply_assign ev countOf r todos
        = (false, todos, r.last_user) := by
    intro ev countOf r todos h
    simp [AssignmentRule.apply_assign, AssignmentRule.safe_eval, h]
  refine ⟨fun ev => ⟨rfl, rfl⟩, happly, ?_⟩
  intro ev countOf today rules
  induction rules with
  | nil =>
    intro todos _
    rfl
  | cons r rs ih =>
    intro todos h
    have hr : r.assign_condition = none := h r (List.mem_cons_self r rs)
    have htail : ∀ r2 ∈ rs, r2.assign_condition = none :=
      fun r2 h2 => h r2 (List.mem_cons_of_mem r h2)
    by_cases hna : AssignmentRule.is_rule_not_applicable_today r today = true
    · simp only [assign_loop, if_pos hna]
      exact ih todos htail
    · simp only [assign_loop, if_neg hna, happly ev countOf r todos hr]
      exact ih todos htail

/-- Witness for C9: a rule without `assign_condition` leaves the store
unchanged, alone and inside the assign phase. -/
theorem claim9_witness :
    AssignmentRule.apply_assign ev_c2 lb_counts rule_b [todo_open_a]
        = (false, [todo_open_a], rule_b.last_user)
      ∧ assign_loop ev_c2 lb_counts "Mon" [rule_b, rule_r1] [todo_open_a]
        = (false, [todo_open_a]) := by
  constructor
  · exact claim9_unset_condition_never_assigns.2.1 ev_c2 lb_counts rule_b
      [todo_open_a] (by decide)
  · exact claim9_unset_condition_never_assigns.2.2 ev_c2 lb_counts "Mon"
      [rule_b, rule_r1] [todo_open_a] (by decide)

/-- C5: in the unassign phase a rule clears the document's existing
assignments only if it authored one of them: a rule that authored none of the
fetched assignments changes nothing, and the loop moves on to the remaining
rules with the store untouched. -/
theorem claim5_unassign_requires_authorship :
    (∀ (ev : Evaluator) (r : RuleCfg) (assignments todos : List Todo),
      ¬ r.name ∈ assignments.map (fun d => d.assignment_rule) →
      AssignmentRule.apply_unassign ev r assignments todos = (false, todos)) ∧
    (∀ (ev : Evaluator) (today : String) (assignments : List Todo)
        (r : RuleCfg) (rs : List RuleCfg) (todos : List Todo),
      ¬ r.name ∈ assignments.map (fun d => d.assignment_rule) →
      unassign_loop ev today assignments (r :: rs) todos
        = unassign_loop ev today assignments rs todos) := by
  have h1 : ∀ (ev : Evaluator) (r : RuleCfg) (assignments todos : List Todo),
      ¬ r.name ∈ assignments.map (fun d => d.assignment_rule) →
      AssignmentRule.apply_unassign ev r assignments todos = (false, todos) := by
    intro ev r assignments todos h
    unfold AssignmentRule.apply_unassign
    rw [if_neg]
    intro hand
    exact h hand.2
  refine ⟨h1, ?_⟩
  intro ev today assignments r rs todos h
  by_cases hna : AssignmentRule.is_rule_not_applicable_today r today = true
  · simp only [unassign_loop, if_pos hna]
  · simp only [unassign_loop, if_neg hna, h1 ev r assignments todos h]
    rfl

/-- Witness for C5: the higher-priority rule `B` with a truthy
`unassign_condition` but no authored assignment causes no unassignment. -/
theorem claim5_witness :
    AssignmentRule.apply_unassign ev_c2 rule_b [todo_open_a] [todo_open_a]
        = (false, [todo_open_a])
      ∧ unassign_loop ev_c2 "Mon" [todo_open_a] [rule_b] [todo_open_a]
        = unassign_loop ev_c2 "Mon" [todo_open_a] [] [todo_open_a] := by
  constructor
  · exact claim5_unassign_requires_authorship.1 ev_c2 rule_b [todo_open_a]
      [todo_open_a] (by decide)
  · exact claim5_unassign_requires_authorship.2 ev_c2 "Mon" [todo_open_a]
      rule_b [] [todo_open_a] (by decide)

/-- C2 (code bug): updating a rule does not invalidate the cache entry that
`apply`'s rule lookup consults.  `get_doctype_map` reads hash field `name` but
writes hash field `doctype`, and `on_update` deletes hash field `self.name`
(the rule's own name).  Concretely, for a rule `R1` whose `document_type` is
`Assignment Rule` itself: the first lookup caches the old rule list under
field `Assignment Rule`; updating `R1` deletes only field `R1`, leaving the
cache unchanged; the next lookup returns the stale old list instead of the
freshly computed one. -/
theorem claim2_stale_cache_after_update :
    on_update
        (get_doctype_map [] "Assignment Rule" "Assignment Rule" ["R1 old"]).2
        "R1"
      = (get_doctype_map [] "Assignment Rule" "Assignment Rule" ["R1 old"]).2
    ∧ (get_doctype_map
          (on_update
            (get_doctype_map [] "Assignment Rule" "Assignment Rule"
              ["R1 old"]).2 "R1")
          "Assignment Rule" "Assignment Rule" ["R1 new"]).1
      = ["R1 old"] := by
  constructor <;> rfl

theorem nextAfter_not_mem (lu : String) :
    ∀ l : List String, lu ∉ l → AssignmentRule.nextAfter lu l = none := by
  intro l
  induction l with
  | nil => intro _; rfl
  | cons u t ih =>
    intro h
    have hu : ¬ u = lu := by
      intro he
      exact h (he ▸ List.mem_cons_self u t)
    cases t with
    | nil => simp [AssignmentRule.nextAfter, hu]
    | cons v s =>
      have ht : lu ∉ v :: s := fun hm => h (List.mem_cons_of_mem u hm)
      simp only [AssignmentRule.nextAfter, if_neg hu]
      exact ih ht

theorem nextAfter_mem (lu : String) :
    ∀ (l : List String) (u : String),
      AssignmentRule.nextAfter lu l = some (some u) → u ∈ l := by
  intro l
  induction l with
  | nil =>
    intro u h
    cases h
  | cons x t ih =>
    intro u h
    cases t with
    | nil =>
      by_cases hx : x = lu <;> simp [AssignmentRule.nextAfter, hx] at h
    | cons v s =>
      by_cases hx : x = lu
      · simp only [AssignmentRule.nextAfter, if_pos hx, Option.some.injEq] at h
        exact h ▸ List.mem_cons_of_mem x (List.mem_cons_self v s)
      · simp only [AssignmentRule.nextAfter, if_neg hx] at h
        exact List.mem_cons_of_mem x (ih u h)

theorem nextAfter_last (lu : String) :
    ∀ l : List String, AssignmentRule.nextAfter lu l = some none →
      l.getLast? = some lu := by
  intro l
  induction l with
  | nil =>
    intro h
    cases h
  | cons x t ih =>
    intro h
    cases t with
    | nil =>
      by_cases hx : x = lu
      · simp [hx]
      · simp [AssignmentRule.nextAfter, hx] at h
    | cons v s =>
      by_cases hx : x = lu
      · simp [AssignmentRule.nextAfter, hx] at h
      · simp only [AssignmentRule.nextAfter, if_neg hx] at h
        rw [List.getLast?_cons_cons]
        exact ih h

/-- C10: under the non-emptiness precondition both selection functions are
total and return a member of the rule's candidate list; with an empty
candidate list both reach the out-of-range indexing error, embedded as
`none`. -/
theorem claim10_selection_totality :
    (∀ (lu : Option String) (users : List String), users ≠ [] →
      ∃ u, AssignmentRule.get_user_round_robin lu users = some u ∧ u ∈ users) ∧
    (∀ (users : List String) (countOf : String → Nat), users ≠ [] →
      ∃ u, AssignmentRule.get_user_load_balancing users countOf = some u
        ∧ u ∈ users) ∧
    (∀ (lu : Option String) (countOf : String → Nat),
      AssignmentRule.get_user_round_robin lu [] = none
        ∧ AssignmentRule.get_user_load_balancing [] countOf = none) := by
  refine ⟨?_, ?_, ?_⟩
  · intro lu users h
    cases lu with
    | none =>
      refine ⟨users.head h, ?_, List.head_mem h⟩
      simp only [AssignmentRule.get_user_round_robin]
      exact List.head?_eq_head h
    | some lu =>
      by_cases hemp : lu = ""
      · refine ⟨users.head h, ?_, List.head_mem h⟩
        simp only [AssignmentRule.get_user_round_robin, if_pos hemp]
        exact List.head?_eq_head h
      · have hlast : users.getLast? = some (users.getLast h) :=
          List.getLast?_eq_getLast users h
        simp only [AssignmentRule.get_user_round_robin, if_neg hemp, hlast]
        by_cases hl : lu = users.getLast h
        · refine ⟨users.head h, ?_, List.head_mem h⟩
          rw [if_pos hl]
          exact List.head?_eq_head h
        · rw [if_neg hl]
          cases hna : AssignmentRule.nextAfter lu users with
          | none =>
            refine ⟨users.head h, ?_, List.head_mem h⟩
            exact List.head?_eq_head h
          | some r =>
            cases r with
            | none =>
              exfalso
              have := nextAfter_last lu users hna
              rw [hlast] at this
              exact hl (Option.some.injEq _ _ ▸ this).symm
            | some u => exact ⟨u, rfl, nextAfter_mem lu users u hna⟩
  · intro users countOf h
    obtain ⟨m, hm_mem, hm_min⟩ := exists_le_all countOf users h
    rw [glb_eq_spec]
    unfold spec_first_minimal
    cases hf : users.find? fun u => decide (∀ v ∈ users, countOf u ≤ countOf v) with
    | none =>
      exfalso
      have := List.find?_eq_none.mp hf m hm_mem
      simp only [decide_eq_true_eq] at this
      exact this hm_min
    | some u => exact ⟨u, rfl, List.mem_of_find?_eq_some hf⟩
  · intro lu countOf
    refine ⟨?_, rfl⟩
    cases lu with
    | none => rfl
    | some lu =>
      by_cases hemp : lu = "" <;>
        simp [AssignmentRule.get_user_round_robin, hemp]

/-- Witness for C10 at a one-element candidate list and a stale
`last_user`. -/
theorem claim10_witness :
    (∃ u, AssignmentRule.get_user_round_robin (some "q") ["x"] = some u
      ∧ u ∈ ["x"])
    ∧ ∃ u, AssignmentRule.get_user_load_balancing ["x"] lb_counts = some u
      ∧ u ∈ ["x"] := by
  constructor
  · exact claim10_selection_totality.1 (some "q") ["x"] (by decide)
  · exact claim10_selection_totality.2.1 ["x"] lb_counts (by decide)

theorem nextAfter_get :
    ∀ users : List String, users.Nodup →
      ∀ (i : Nat) (hi : i < users.length) (h1 : i + 1 < users.length),
        AssignmentRule.nextAfter (users.get ⟨i, hi⟩) users
          = some (some (users.get ⟨i + 1, h1⟩)) := by
  intro users
  induction users with
  | nil =>
    intro _ i _ h1
    simp at h1
  | cons x t ih =>
    intro hnd i hi h1
    cases t with
    | nil => simp at h1
    | cons v s =>
      cases i with
      | zero =>
        have hx : (x :: v :: s).get ⟨0, hi⟩ = x := rfl
        rw [hx]
        simp [AssignmentRule.nextAfter]
      | succ j =>
        have hj : j < (v :: s).length := by
          have := Nat.lt_of_succ_lt_succ h1
          omega
        have hj1 : j + 1 < (v :: s).length := Nat.lt_of_succ_lt_succ h1
        have hget : (x :: v :: s).get ⟨j + 1, hi⟩ = (v :: s).get ⟨j, hj⟩ := rfl
        have hx_notin : x ∉ v :: s := (List.nodup_cons.mp hnd).1
        have hxne : ¬ x = (v :: s).get ⟨j, hj⟩ := by
          intro he
          exact hx_notin (he ▸ List.get_mem _ _ _)
        rw [hget]
        simp only [AssignmentRule.nextAfter, if_neg hxne]
        rw [ih (List.nodup_cons.mp hnd).2 j hj hj1]
        rfl

theorem rr_step (users : List String) (h : users ≠ []) (hnd : users.Nodup)
    (h0 : "" ∉ users) (i : Nat) (hi : i < users.length) :
    AssignmentRule.get_user_round_robin (some (users.get ⟨i, hi⟩)) users
      = some (users.get ⟨(i + 1) % users.length,
          Nat.mod_lt (i + 1) (List.length_pos.mpr h)⟩) := by
  have hpos : 0 < users.length := List.length_pos.mpr h
  have hlast : users.getLast? = some (users.getLast h) :=
    List.getLast?_eq_getLast users h
  have hlast_get : users.getLast h = users.get ⟨users.length - 1, by omega⟩ :=
    List.getLast_eq_get users h
  have hhead : users.head? = some (users.get ⟨0, hpos⟩) := by
    cases users with
    | nil => exact absurd rfl h
    | cons x t => rfl
  have hne0 : ¬ users.get ⟨i, hi⟩ = "" := by
    intro he
    exact h0 (he ▸ List.get_mem users i hi)
  simp only [AssignmentRule.get_user_round_robin, if_neg hne0, hlast]
  by_cases hi_last : i = users.length - 1
  · rw [if_pos]
    · have hmod0 : (i + 1) % users.length = 0 := by
        rw [hi_last, Nat.sub_add_cancel hpos, Nat.mod_self]
      have hfin : (⟨(i + 1) % users.length,
          Nat.mod_lt (i + 1) (List.length_pos.mpr h)⟩ : Fin users.length)
          = ⟨0, hpos⟩ := Fin.ext hmod0
      rw [hfin]
      exact hhead
    · rw [hlast_get]
      exact congrArg users.get (Fin.ext hi_last)
  · have hi1 : i + 1 < users.length := by omega
    have hne : ¬ users.get ⟨i, hi⟩ = users.getLast h := by
      rw [hlast_get]
      intro he
      have hfin := (List.Nodup.get_inj_iff hnd).mp he
      exact hi_last (congrArg Fin.val hfin)
    rw [if_neg hne]
    rw [nextAfter_get users hnd i hi hi1]
    have hfin : (⟨(i + 1) % users.length,
        Nat.mod_lt (i + 1) (List.length_pos.mpr h)⟩ : Fin users.length)
        = ⟨i + 1, hi1⟩ := Fin.ext (Nat.mod_eq_of_lt hi1)
    rw [hfin]

theorem rr_cycle (users : List String) (h : users ≠ []) (hnd : users.Nodup)
    (h0 : "" ∉ users) :
    ∀ k : Nat, rr_seq users k
      = some (users.get ⟨k % users.length,
          Nat.mod_lt k (List.length_pos.mpr h)⟩) := by
  have hpos : 0 < users.length := List.length_pos.mpr h
  intro k
  induction k with
  | zero =>
    have hhead : users.head? = some (users.get ⟨0, hpos⟩) := by
      cases users with
      | nil => exact absurd rfl h
      | cons x t => rfl
    have hfin : (⟨0 % users.length,
        Nat.mod_lt 0 (List.length_pos.mpr h)⟩ : Fin users.length)
        = ⟨0, hpos⟩ := Fin.ext (Nat.zero_mod _)
    show AssignmentRule.get_user_round_robin none users = _
    rw [hfin]
    simp only [AssignmentRule.get_user_round_robin]
    exact hhead
  | succ k ih =>
    show AssignmentRule.get_user_round_robin (rr_seq users k) users = _
    rw [ih, rr_step users h hnd h0 (k % users.length) (Nat.mod_lt k hpos)]
    have hmod : (k % users.length + 1) % users.length
        = (k + 1) % users.length := by
      conv_rhs => rw [Nat.add_mod]
      rw [Nat.add_mod (k % users.length) 1 users.length]
      simp
    have hfin : (⟨(k % users.length + 1) % users.length,
        Nat.mod_lt (k % users.length + 1) (List.length_pos.mpr h)⟩ :
          Fin users.length)
        = ⟨(k + 1) % users.length,
            Nat.mod_lt (k + 1) (List.length_pos.mpr h)⟩ := Fin.ext hmod
    rw [hfin]

theorem rr_stale (users : List String) (lu : String) (h : users ≠ [])
    (hmem : lu ∉ users) :
    AssignmentRule.get_user_round_robin (some lu) users
      = some (users.head h) := by
  by_cases hemp : lu = ""
  · simp only [AssignmentRule.get_user_round_robin, if_pos hemp]
    exact List.head?_eq_head h
  · have hlast : users.getLast? = some (users.getLast h) :=
      List.getLast?_eq_getLast users h
    simp only [AssignmentRule.get_user_round_robin, if_neg hemp, hlast]
    have hne : ¬ lu = users.getLast h := by
      intro he
      exact hmem (he ▸ List.getLast_mem h)
    rw [if_neg hne, nextAfter_not_mem lu users hmem]
    exact List.head?_eq_head h

/-- C3 as stated is false on the code, in two ways.  For the candidate list
`[a, b, a]`, the first call from `last_user = none` picks `a`, and the second
call sees `last_user` equal to the *last* candidate (also `a`) and picks `a`
again, not the claimed `u2 = b`.  And for the pairwise-distinct list
`["", x]`, the persisted empty-string candidate is falsy on the next read
(`if not self.last_user`), so the second call restarts at `u1 = ""` instead
of cycling to `u2 = x`. -/
theorem claim3_counterexample :
    (¬ ∀ (users : List String) (h : users ≠ []) (k : Nat),
        rr_seq users k
          = some (users.get ⟨k % users.length,
              Nat.mod_lt k (List.length_pos.mpr h)⟩))
      ∧ (["", "x"] : List String).Nodup
      ∧ rr_seq ["", "x"] 1 = some "" := by
  refine ⟨?_, by decide, by decide⟩
  intro hall
  have h2 := hall ["a", "b", "a"] (by decide) 1
  exact absurd h2 (by decide)

/-- C3 amended: for a *pairwise-distinct* non-empty candidate list *without
an empty-string entry* (an empty string persisted as `last_user` reads back
as unset), repeated round-robin selection starting from `last_user = none`
(persisting each chosen user) cycles through the candidates in order; and
whenever `last_user` is not a member of the candidate list, the next
selection is the first candidate. -/
theorem claim3_round_robin_amended :
    (∀ (users : List String) (h : users ≠ []), users.Nodup → "" ∉ users →
      ∀ k : Nat, rr_seq users k
        = some (users.get ⟨k % users.length,
            Nat.mod_lt k (List.length_pos.mpr h)⟩)) ∧
    (∀ (users : List String) (h : users ≠ []) (lu : String), lu ∉ users →
      AssignmentRule.get_user_round_robin (some lu) users
        = some (users.head h)) :=
  ⟨fun users h hnd h0 k => rr_cycle users h hnd h0 k,
   fun users h lu hm => rr_stale users lu h hm⟩

/-- Witness for the amended C3: on `[a, b]` the third selection wraps to `a`
(index `2 % 2`), and a stale `last_user` falls back to the head. -/
theorem claim3_witness :
    rr_seq ["a", "b"] 2
        = some (["a", "b"].get
            ⟨2 % (["a", "b"] : List String).length, by decide⟩)
      ∧ AssignmentRule.get_user_round_robin (some "z") ["a", "b"]
        = some (["a", "b"].head (by decide)) := by
  constructor
  · exact claim3_round_robin_amended.1 ["a", "b"] (by decide) (by decide)
      (by decide) 2
  · exact claim3_round_robin_amended.2 ["a", "b"] (by decide) "z" (by decide)

theorem reopenAux_eq_none :
    ∀ todos : List Todo, (∀ t ∈ todos, ¬ t.status = "Closed") →
      reopenAux todos = none := by
  intro todos
  induction todos with
  | nil => intro _; rfl
  | cons t ts ih =>
    intro h
    have ht : ¬ t.status = "Closed" := h t (List.mem_cons_self t ts)
    have hts := ih fun t2 h2 => h t2 (List.mem_cons_of_mem t h2)
    simp [reopenAux, ht, hts]

theorem reopenAux_isSome :
    ∀ todos : List Todo, (∃ t ∈ todos, t.status = "Closed") →
      ∃ ts2, reopenAux todos = some ts2 := by
  intro todos
  induction todos with
  | nil =>
    intro h
    obtain ⟨t, ht, _⟩ := h
    cases ht
  | cons t ts ih =>
    intro h
    by_cases ht : t.status = "Closed"
    · exact ⟨Todo.mk "Open" t.assignment_rule t.owner :: ts,
        by simp [reopenAux, ht]⟩
    · have h2 : ∃ t2 ∈ ts, t2.status = "Closed" := by
        obtain ⟨t2, hmem, hst⟩ := h
        rcases List.mem_cons.mp hmem with he | hmem2
        · exact absurd (he ▸ hst) ht
        · exact ⟨t2, hmem2, hst⟩
      obtain ⟨ts2, hts2⟩ := ih h2
      exact ⟨t :: ts2, by simp [reopenAux, ht, hts2]⟩

theorem reopen_not_closed (todos : List Todo)
    (h : ∀ t ∈ todos, ¬ t.status = "Closed") :
    reopen_closed_assignment todos = (false, todos) := by
  unfold reopen_closed_assignment
  rw [reopenAux_eq_none todos h]

theorem reopen_closed_fst (todos : List Todo)
    (h : ∃ t ∈ todos, t.status = "Closed") :
    (reopen_closed_assignment todos).1 = true := by
  obtain ⟨ts2, hts⟩ := reopenAux_isSome todos h
  unfold reopen_closed_assignment
  rw [hts]

/-- C1 as stated is false on the code: with no new assignment and the first
applicable rule's `close_condition` false, the claim requires a Closed
assignment to be reopened and the phase to stop; but here the document has no
Closed assignment, so the reopen attempt fails, the phase continues, and the
lower-priority rule `r2` (authored, condition true) closes the document's open
assignment. -/
theorem claim1_counterexample :
    (AssignmentRule.safe_eval ev_c2 rule_r1.close_condition).1 = false
      ∧ AssignmentRule.is_rule_not_applicable_today rule_r1 "Mon" = false
      ∧ (∀ t ∈ [todo_open_r2], ¬ t.status = "Closed")
      ∧ close_loop ev_c2 "Mon" false [todo_open_r2] [rule_r1, rule_r2]
          [todo_open_r2]
        = [Todo.mk "Closed" "r2" (some "alice")]
      ∧ ¬ ((reopen_closed_assignment [todo_open_r2]).1 = true
          ∧ close_loop ev_c2 "Mon" false [todo_open_r2] [rule_r1, rule_r2]
              [todo_open_r2]
            = (reopen_closed_assignment [todo_open_r2]).2) := by
  refine ⟨by decide, by decide, by decide, by decide, by decide⟩

/-- C1 amended: in the close/reopen phase, iterating applicable rules in
priority order: (i) inapplicable rules are skipped; (ii) if no new assignment
happened, the current rule's `close_condition` evaluates false and the
document has a Closed assignment, the first Closed assignment is reopened and
the phase stops; (iii) otherwise — the reopen branch not firing because a new
assignment happened, or the condition evaluated true, or no Closed assignment
exists — the current rule closes all open assignments and stops the phase
exactly when its `close_condition` evaluates true and it authored one of the
fetched assignments, and otherwise the phase moves on with the store
untouched. -/
theorem claim1_close_reopen_amended :
    (∀ (ev : Evaluator) (today : String) (na : Bool) (assignments : List Todo)
        (r : RuleCfg) (rs : List RuleCfg) (todos : List Todo),
      AssignmentRule.is_rule_not_applicable_today r today = true →
      close_loop ev today na assignments (r :: rs) todos
        = close_loop ev today na assignments rs todos) ∧
    (∀ (ev : Evaluator) (today : String) (assignments : List Todo)
        (r : RuleCfg) (rs : List RuleCfg) (todos : List Todo),
      AssignmentRule.is_rule_not_applicable_today r today = false →
      (AssignmentRule.safe_eval ev r.close_condition).1 = false →
      (∃ t ∈ todos, t.status = "Closed") →
      close_loop ev today false assignments (r :: rs) todos
        = (reopen_closed_assignment todos).2) ∧
    (∀ (ev : Evaluator) (today : String) (na : Bool) (assignments : List Todo)
        (r : RuleCfg) (rs : List RuleCfg) (todos : List Todo),
      AssignmentRule.is_rule_not_applicable_today r today = false →
      (na = true ∨ (AssignmentRule.safe_eval ev r.close_condition).1 = true
        ∨ ∀ t ∈ todos, ¬ t.status = "Closed") →
      close_loop ev today na assignments (r :: rs) todos
        = if (AssignmentRule.safe_eval ev r.close_condition).1 = true
              ∧ r.name ∈ assignments.map (fun d => d.assignment_rule)
          then (close_all_assignments todos).2
          else close_loop ev today na assignments rs todos) := by
  refine ⟨?_, ?_, ?_⟩
  · intro ev today na assignments r rs todos hna
    simp only [close_loop, if_pos hna]
  · intro ev today assignments r rs todos hna hcond hclosed
    have hna2 : ¬ AssignmentRule.is_rule_not_applicable_today r today = true := by
      simp [hna]
    have hfst : (reopen_closed_assignment todos).1 = true :=
      reopen_closed_fst todos hclosed
    simp only [close_loop, if_neg hna2, hcond]
    simp [hfst]
  · intro ev today na assignments r rs todos hna hside
    have hna2 : ¬ AssignmentRule.is_rule_not_applicable_today r today = true := by
      simp [hna]
    have hstep : (if na = false then
          (if (AssignmentRule.safe_eval ev r.close_condition).1 = false then
            reopen_closed_assignment todos
          else (false, todos))
        else (false, todos)) = ((false, todos) : Bool × List Todo) := by
      rcases hside with hna_t | hcond | hnoc
      · rw [hna_t]
        simp
      · cases na with
        | true => simp
        | false => simp [hcond]
      · cases na with
        | true => simp
        | false =>
          by_cases hc : (AssignmentRule.safe_eval ev r.close_condition).1 = false
          · simp [hc, reopen_not_closed todos hnoc]
          · simp [hc]
    simp only [close_loop, if_neg hna2, hstep]
    by_cases hauth : r.name ∈ assignments.map fun d => d.assignment_rule
    · by_cases hc : (AssignmentRule.safe_eval ev r.close_condition).1 = true
      · simp [AssignmentRule.apply_close, AssignmentRule.close_assignments,
          hauth, hc, close_all_assignments]
      · simp [AssignmentRule.apply_close, AssignmentRule.close_assignments,
          hauth, hc]
    · simp [AssignmentRule.apply_close, hauth]

/-- Witness for the amended C1: a Closed assignment authored by `r1`, no new
assignment, `close_condition` false — the phase reopens it and stops. -/
theorem claim1_witness :
    close_loop ev_false "Mon" false [todo_closed_r1] [rule_r1]
        [todo_closed_r1]
      = (reopen_closed_assignment [todo_closed_r1]).2 :=
  claim1_close_reopen_amended.2.1 ev_false "Mon" [todo_closed_r1] rule_r1 []
    [todo_closed_r1] (by decide) (by decide) (by decide)

end Frappe

